import Mathlib

/-!
Verification of the estimator core of `simple_ris_bpt`
(`src/inc/sample/our/renderer-impl.hpp`).

The per-frame orchestration (`renderer::render`), the candidate-pool
construction, the progressive normalization estimator, the cache-selector
draw and the resampling MIS weight of `renderer::calculate_st` are embedded
shallowly.  External collaborators (scene intersection, BRDFs, camera
projection, sub-path construction, kd-tree, RNG draws) are modelled as
oracle inputs, following the interface contracts they satisfy.  The
estimator arithmetic is embedded over `ℚ` (exact arithmetic); the
NaN/infinity behaviour of the final pixel store and the scatter-buffer
merge is embedded over an explicit IEEE-like value type `FVal`.
-/

namespace RisBpt

/-- IEEE-like scalar: a finite rational, the two infinities, or NaN.
Models the `float`/`col3` component values flowing through the final image
store and the scatter-buffer merge of `renderer::render`. -/
inductive FVal where
  | fin (q : ℚ)
  | pinf
  | ninf
  | nan
deriving DecidableEq

/-- IEEE addition on `FVal`: NaN propagates, opposite infinities give NaN. -/
def FVal.add : FVal → FVal → FVal
  | .nan, _ => .nan
  | _, .nan => .nan
  | .pinf, .ninf => .nan
  | .ninf, .pinf => .nan
  | .pinf, _ => .pinf
  | _, .pinf => .pinf
  | .ninf, _ => .ninf
  | _, .ninf => .ninf
  | .fin a, .fin b => .fin (a + b)

/-- IEEE multiplication on `FVal`: NaN propagates, `0 * inf = NaN`. -/
def FVal.mul : FVal → FVal → FVal
  | .nan, _ => .nan
  | _, .nan => .nan
  | .pinf, .pinf => .pinf
  | .pinf, .ninf => .ninf
  | .ninf, .pinf => .ninf
  | .ninf, .ninf => .pinf
  | .pinf, .fin b => if 0 < b then .pinf else if b < 0 then .ninf else .nan
  | .ninf, .fin b => if 0 < b then .ninf else if b < 0 then .pinf else .nan
  | .fin a, .pinf => if 0 < a then .pinf else if a < 0 then .ninf else .nan
  | .fin a, .ninf => if 0 < a then .ninf else if a < 0 then .pinf else .nan
  | .fin a, .fin b => .fin (a * b)

/-- Whether the value is NaN (the `std::isnan` test). -/
def FVal.isNaN : FVal → Bool
  | .nan => true
  | _ => false

/-- Whether the value is finite (neither NaN nor an infinity). -/
def FVal.isFinite : FVal → Bool
  | .fin _ => true
  | _ => false

/-- An RGB colour of IEEE-like scalars (`col3` in the source). -/
structure Col3 where
  r : FVal
  g : FVal
  b : FVal
deriving DecidableEq

/-- The zero colour `col3()` (a freshly allocated pixel of `imagef`). -/
def colZero : Col3 := ⟨.fin 0, .fin 0, .fin 0⟩

/-- The component sum `col[0] + col[1] + col[2]` fed to `std::isnan`. -/
def Col3.hsum (c : Col3) : FVal := FVal.add (FVal.add c.r c.g) c.b

/-- Componentwise colour addition (`screen(x,y)[k] += ...`). -/
def colAdd (c d : Col3) : Col3 :=
  ⟨FVal.add c.r d.r, FVal.add c.g d.g, FVal.add c.b d.b⟩

/-- Componentwise scaling `c * s`, operand order as in the merge loop
`m_buf_s1(x,y)[k] * inv_ns1`. -/
def colScale (c : Col3) (s : FVal) : Col3 :=
  ⟨FVal.mul c.r s, FVal.mul c.g s, FVal.mul c.b s⟩

/-- Whether any component is NaN. -/
def Col3.hasNaN (c : Col3) : Bool := c.r.isNaN || c.g.isNaN || c.b.isNaN

/-- Whether every component is finite. -/
def Col3.allFinite (c : Col3) : Bool := c.r.isFinite && c.g.isFinite && c.b.isFinite

/-- Whether the colour contains a non-finite (NaN or infinite) component. -/
def Col3.hasNonFinite (c : Col3) : Bool := !c.allFinite

/-- The NaN firewall of `renderer::render`:
`if(!(std::isnan(col[0]+col[1]+col[2]))){ screen(x,y) = col; }` — the prior
pixel value survives exactly when the component sum is NaN. -/
def storeDirect (prior c : Col3) : Col3 :=
  if c.hsum.isNaN then prior else c

/-- Resolution accessors of the external `camera` collaborator
(`res_x()`, `res_y()`). -/
structure Camera where
  res_x : ℕ
  res_y : ℕ

/-- `candidate(m_light_paths[i], j)`: an immutable (sub-path index,
vertex index) reference into the light-subpath pool. -/
structure Candidate where
  pathIdx : ℕ
  vertIdx : ℕ
deriving DecidableEq

/-- The candidate pool built in `renderer::render`: for `i` in
`0 .. m_M - 1` (outer loop) and `j` in `0 .. num_vertices(i) - 1` (inner
loop), the entry `candidate(m_light_paths[i], j)` is written at the next
position.  `nv i` models `m_light_paths[i].num_vertices()`; the recursion
on `M` appends the block of sub-path `M - 1` after all earlier blocks,
which is exactly the write order of the two nested loops. -/
def buildCandidates (nv : ℕ → ℕ) : ℕ → List Candidate
  | 0 => []
  | M + 1 => buildCandidates nv M ++ (List.range (nv M)).map (fun j => ⟨M, j⟩)

/-- Lexicographic subpath-then-vertex order on candidates. -/
def Candidate.lexLt (a b : Candidate) : Prop :=
  a.pathIdx < b.pathIdx ∨ (a.pathIdx = b.pathIdx ∧ a.vertIdx < b.vertIdx)

instance : DecidableRel Candidate.lexLt := fun _ _ => by
  unfold Candidate.lexLt; infer_instance

/-- The persistent scalar state of `our::renderer` that the claims
concern.  (`m_buf_s1`, the per-pixel locks, `m_caches` and
`m_light_paths` are modelled as per-frame oracles.) -/
structure renderer where
  m_M : ℕ
  m_nt : ℕ
  m_ns1 : ℕ
  m_sum : ℚ
  m_ite : ℕ
  m_Qp : ℚ
deriving DecidableEq

/-- The constructor `renderer::renderer(scene, camera, M, nt)`: stores `M`
and `nt`, sets `m_ns1 = res_x() * res_y()` and value-initialises `m_sum`
and `m_ite`; it performs no validation of `M` whatsoever.  (`m_Qp` is
assigned inside `render` before its first read; it is initialised to `0`
here.) -/
def renderer.init (cam : Camera) (M nt : ℕ) : renderer :=
  { m_M := M, m_nt := nt, m_ns1 := cam.res_x * cam.res_y,
    m_sum := 0, m_ite := 0, m_Qp := 0 }

/-- Per-frame oracle inputs to one `render` call: the vertex counts of the
freshly generated light sub-paths, the per-pixel radiance results of the
parallel phase, and the contents of the scatter buffer `m_buf_s1` after
that phase. -/
structure FrameInput where
  numVertices : ℕ → ℕ
  radiance : ℕ → ℕ → Col3
  scatter : ℕ → ℕ → Col3

/-- The scale `inv_ns1 = 1 / float(m_ns1)` (IEEE: `1 / 0.0 = +inf`). -/
def invNs1 (ns1 : ℕ) : FVal :=
  if ns1 = 0 then .pinf else .fin (1 / (ns1 : ℚ))

/-- Result of one `render` call: the mutated renderer state, the candidate
pool of the frame, and the returned image. -/
structure RenderResult where
  state : renderer
  m_candidates : List Candidate
  image : ℕ → ℕ → Col3

/-- One call of `renderer::render`: `m_ite += 1`; build the candidate pool
from the first `m_M` light sub-paths; `m_sum += m_candidates.size() /
double(m_M)`; `m_Qp = float(m_sum / m_ite)`; store each pixel's radiance
through the NaN firewall into the zero-initialised `screen`; finally add
`m_buf_s1(x,y) * inv_ns1` to every pixel unconditionally. -/
def renderer.render (st : renderer) (inp : FrameInput) : RenderResult :=
  let ite' := st.m_ite + 1
  let cands := buildCandidates inp.numVertices st.m_M
  let sum' := st.m_sum + (cands.length : ℚ) / (st.m_M : ℚ)
  let Qp' := sum' / (ite' : ℚ)
  { state := { st with m_ite := ite', m_sum := sum', m_Qp := Qp' },
    m_candidates := cands,
    image := fun x y =>
      colAdd (storeDirect colZero (inp.radiance x y))
             (colScale (inp.scatter x y) (invNs1 st.m_ns1)) }

/-- The renderer state after `k` successive calls of `render`. -/
def iterRender (st0 : renderer) (inps : ℕ → FrameInput) : ℕ → renderer
  | 0 => st0
  | k + 1 => ((iterRender st0 inps k).render (inps k)).state

/-- The inline linear scan of `calculate_st` drawing the cache selector:
`k` is the number of loop iterations remaining (`Nc - i`), `c` the loop
constant `1 / float(Nc + 1)`.  Each iteration returns `i` when
`u < 1/(Nc+1)` and otherwise subtracts `1/(Nc+1)` from `u`; when the loop
exhausts, `cache_idx` keeps its initial value `Nc` (the virtual slot). -/
def selectorScanGo (Nc : ℕ) (c : ℚ) : ℕ → ℕ → ℚ → ℕ
  | 0, _, _ => Nc
  | k + 1, i, u => if u < c then i else selectorScanGo Nc c k (i + 1) (u - c)

/-- The full selector scan, started at `i = 0` with `Nc` iterations. -/
def selectorScan (Nc : ℕ) (u : ℚ) : ℕ :=
  selectorScanGo Nc (1 / ((Nc : ℚ) + 1)) Nc 0 u

/-- The selector index together with the recorded selector probability
`pmf = 1 / float(Nc + 1)`, which the source sets before the scan,
independently of its outcome. -/
structure SelectorDraw where
  idx : ℕ
  pmf : ℚ

/-- Lines 252-262 of `renderer-impl.hpp`: `cache_idx` from the linear
scan, `pmf = 1/(Nc+1)`. -/
def drawSelector (Nc : ℕ) (u : ℚ) : SelectorDraw :=
  ⟨selectorScan Nc u, 1 / ((Nc : ℚ) + 1)⟩

/-- The action taken by one `t`-iteration of `calculate_st` after the
selector draw. -/
inductive StAction where
  | skip
  | sampleCache (idx : ℕ)
  | sampleVirtual (upper : ℕ)
deriving DecidableEq

/-- 64-bit `size_t` evaluation of `m_candidates.size() - 1` (wraps to
`2^64 - 1` when the pool is empty). -/
def sizeTSub1 (n : ℕ) : ℕ := (n + (2 ^ 64 - 1)) % 2 ^ 64

/-- One `t`-iteration of `calculate_st` up to the choice of the sampling
source: skip an emissive vertex; draw the selector; skip when a real
cache with `normalization_constant() == 0` was chosen; otherwise sample
from the chosen real cache, or — for the virtual slot — draw
`generate_uniform_int(0, m_candidates.size() - 1)` (size_t arithmetic)
to index the candidate pool. -/
def stStep (Nc : ℕ) (emissive : Bool) (u : ℚ) (normConst : ℕ → ℚ)
    (poolSize : ℕ) : StAction :=
  if emissive then .skip
  else
    let sel := drawSelector Nc u
    if sel.idx ≠ Nc ∧ normConst sel.idx = 0 then .skip
    else if sel.idx ≠ Nc then .sampleCache sel.idx
    else .sampleVirtual (sizeTSub1 poolSize)

/-- The data of `z(t-1).neighbor_cache(i)` read by the MIS loop of
`calculate_st`: `Q()`, `pmf(sample_idx)` and `normalization_constant()`. -/
structure NbrCache where
  Q : ℚ
  pmfAtSample : ℚ
  normConst : ℚ

/-- The per-cache balance-like term of `calculate_st`:
`(1/(Nc+1)) * M / ((M-1) * max(mis_threshold, Q/L) + 1)` where
`L = pmf(sample_idx) * normalization_constant()`. -/
def realTerm (Nc M : ℕ) (thr Q L : ℚ) : ℚ :=
  1 / ((Nc : ℚ) + 1) * (M : ℚ) / (((M : ℚ) - 1) * max thr (Q / L) + 1)

/-- The virtual-slot term `(1/(Nc+1)) * M / ((M-1) * m_Qp + 1)` (no
`mis_threshold` clamp is applied here in the source). -/
def virtualTerm (Nc M : ℕ) (Qp : ℚ) : ℚ :=
  1 / ((Nc : ℚ) + 1) * (M : ℚ) / (((M : ℚ) - 1) * Qp + 1)

/-- One iteration of the MIS loop body: when
`pmf(sample_idx) * normalization_constant() > 0`, the balance-like term is
added to `sum_val` and, for the chosen cache, written to `val`;
otherwise the accumulator passes through unchanged.  The first component
is `val` (`none` while still uninitialised), the second `sum_val`. -/
def misLoopStep (Nc M : ℕ) (thr : ℚ) (nbr : ℕ → NbrCache) (cacheIdx : ℕ)
    (acc : Option ℚ × ℚ) (i : ℕ) : Option ℚ × ℚ :=
  let L := (nbr i).pmfAtSample * (nbr i).normConst
  if 0 < L then
    let tmp := realTerm Nc M thr (nbr i).Q L
    (if cacheIdx = i then some tmp else acc.1, acc.2 + tmp)
  else acc

/-- The loop `for(size_t i = 0; i < Nc; i++){ ... }` of the MIS weight
computation, starting from uninitialised `val` and `sum_val = 0`. -/
def misLoop (Nc M : ℕ) (thr : ℚ) (nbr : ℕ → NbrCache) (cacheIdx : ℕ) :
    Option ℚ × ℚ :=
  (List.range Nc).foldl (misLoopStep Nc M thr nbr cacheIdx) (none, 0)

/-- The complete MIS weight of `calculate_st`: after the loop, the
virtual-slot term is always added to `sum_val` and written to `val` when
the virtual slot was chosen; then
`mis_weight = val / (light-partial + sum_val + camera-partial)`.
The result is `none` when `val` was never written (an uninitialised read
in the source). -/
def misWeightSt (Nc M : ℕ) (thr Qp lightW camW : ℚ) (nbr : ℕ → NbrCache)
    (cacheIdx : ℕ) : Option ℚ :=
  let acc := misLoop Nc M thr nbr cacheIdx
  let tv := virtualTerm Nc M Qp
  let val := if cacheIdx = Nc then some tv else acc.1
  let sumVal := acc.2 + tv
  val.map (fun v => v / (lightW + sumVal + camW))

/-- One colour channel of the contribution accumulated by `calculate_st`:
`Le_throughput * fyz * fzy * throughput_We * (G / (pmf * m_M) * mis_weight)`
with the source's grouping. -/
def contribStChannel (LeT fyz fzy tWe G pmf : ℚ) (M : ℕ) (w : ℚ) : ℚ :=
  LeT * fyz * fzy * tWe * (G / (pmf * (M : ℚ)) * w)

/-- Concrete frame oracle for witnesses: every light sub-path has one
vertex, radiance and scatter are identically zero. -/
def oneVertexFrame : FrameInput :=
  ⟨fun _ => 1, fun _ _ => colZero, fun _ _ => colZero⟩

/-- Constant frame sequence for witnesses. -/
def constFrames : ℕ → FrameInput := fun _ => oneVertexFrame

/-- A colour with an infinite (non-finite but non-NaN) first component. -/
def infCol : Col3 := ⟨FVal.pinf, FVal.fin 0, FVal.fin 0⟩

/-- A colour with a NaN first component. -/
def nanCol : Col3 := ⟨FVal.nan, FVal.fin 0, FVal.fin 0⟩

/-- An all-finite colour. -/
def finCol : Col3 := ⟨FVal.fin 1, FVal.fin 2, FVal.fin 3⟩

/-- Frame oracle whose radiance is NaN and scatter is infinite at every
pixel. -/
def nanFrame : FrameInput :=
  ⟨fun _ => 0, fun _ _ => nanCol, fun _ _ => infCol⟩

/-- Concrete neighbor-cache environment for witnesses. -/
def constNbr : ℕ → NbrCache := fun _ => ⟨1, 1, 1⟩

/-- Concrete vertex-count functions for witnesses: `nvA` and `nvB` agree
below `2` and differ from index `2` on. -/
def nvA : ℕ → ℕ := fun i => i + 1

/-- See `nvA`. -/
def nvB : ℕ → ℕ := fun i => if i < 2 then i + 1 else 7

/-- `isNaN` characterises the `nan` constructor. -/
theorem FVal.isNaN_true_iff (a : FVal) : a.isNaN = true ↔ a = .nan := by
  cases a <;> simp [FVal.isNaN]

/-- Adding a NaN operand always yields NaN (IEEE propagation). -/
theorem FVal.add_nan (a b : FVal) (h : a.isNaN = true ∨ b.isNaN = true) :
    (FVal.add a b).isNaN = true := by
  rcases h with h | h
  · rw [FVal.isNaN_true_iff] at h
    subst h; cases b <;> rfl
  · rw [FVal.isNaN_true_iff] at h
    subst h; cases a <;> rfl

/-- The component sum of a colour with a NaN component is NaN. -/
theorem Col3.hsum_nan (c : Col3) (h : c.hasNaN = true) : c.hsum.isNaN = true := by
  obtain ⟨r, g, b⟩ := c
  have h' : (r.isNaN = true ∨ g.isNaN = true) ∨ b.isNaN = true := by
    simpa [Col3.hasNaN, Bool.or_eq_true] using h
  show (FVal.add (FVal.add r g) b).isNaN = true
  rcases h' with (h | h) | h
  · exact FVal.add_nan _ _ (Or.inl (FVal.add_nan _ _ (Or.inl h)))
  · exact FVal.add_nan _ _ (Or.inl (FVal.add_nan _ _ (Or.inr h)))
  · exact FVal.add_nan _ _ (Or.inr h)

/-- The component sum of an all-finite colour is finite (in particular not
NaN): the model has no overflow, matching the claims' scope. -/
theorem Col3.hsum_finite (c : Col3) (h : c.allFinite = true) :
    c.hsum.isNaN = false := by
  obtain ⟨r, g, b⟩ := c
  cases r <;> cases g <;> cases b <;>
    simp_all [Col3.allFinite, FVal.isFinite, Col3.hsum, FVal.add, FVal.isNaN]

/-- C4 (counterexample): the colour `(+inf, 0, 0)` contains a non-finite
value, yet `storeDirect` stores it — the pixel's prior value (zero) is
overwritten, because `std::isnan(inf + 0 + 0)` is false.  The claim that
every non-finite colour is detected and leaves the pixel unmodified is
therefore false. -/
theorem nan_filter_counterexample :
    infCol.hasNonFinite = true ∧ storeDirect colZero infCol = infCol
      ∧ infCol ≠ colZero := by
  decide

/-- C4 (amended): the pixel's prior value is left unmodified exactly when
the IEEE component sum `col[0]+col[1]+col[2]` is NaN; in particular a
colour containing a NaN component is always rejected, and an all-finite
colour is always stored.  (A colour containing an infinity but no NaN and
no opposite-infinity cancellation passes the filter, as the
counterexample shows.) -/
theorem nan_filter_behaviour (prior c : Col3) :
    storeDirect prior c = (if c.hsum.isNaN then prior else c)
  ∧ (c.hasNaN = true → storeDirect prior c = prior)
  ∧ (c.allFinite = true → storeDirect prior c = c) := by
  refine ⟨rfl, fun h => ?_, fun h => ?_⟩
  · simp [storeDirect, Col3.hsum_nan c h]
  · simp [storeDirect, Col3.hsum_finite c h]

/-- Witness for `nan_filter_behaviour` at concrete colours. -/
theorem nan_filter_behaviour_witness :
    storeDirect colZero nanCol = colZero ∧ storeDirect colZero finCol = finCol :=
  ⟨(nan_filter_behaviour colZero nanCol).2.1 (by decide),
   (nan_filter_behaviour colZero finCol).2.2 (by decide)⟩

/-- C9 (amended): the constructor performs no validation of `M` at all —
for every camera and every `M` (also `M > res_x * res_y`) it succeeds,
and its result differs from a construction with any other `M` only in
the stored `m_M` field; `m_ns1` is always `res_x * res_y`. -/
theorem ctor_unchecked_M (cam : Camera) (M M' nt : ℕ) :
    renderer.init cam M nt = { renderer.init cam M' nt with m_M := M }
  ∧ (renderer.init cam M nt).m_ns1 = cam.res_x * cam.res_y :=
  ⟨rfl, rfl⟩

/-- C9 (counterexample): constructing with `M = 2` on a `1x1` camera —
a configuration violating `M ≤ width*height` — succeeds and yields the
same fully initialised state as the valid `M = 1` construction except for
the stored `M`; nothing fails or rejects at construction time. -/
theorem ctor_accepts_violating_M :
    renderer.init ⟨1, 1⟩ 2 1 = { renderer.init ⟨1, 1⟩ 1 1 with m_M := 2 }
  ∧ 1 * 1 < 2 :=
  ⟨rfl, by decide⟩

/-- C5: whenever the drawn selector is a real cache (not the virtual
slot `Nc`) and that cache's `normalization_constant()` is zero, the
`t`-iteration of `calculate_st` is skipped. -/
theorem calcSt_zero_norm_skip (Nc : ℕ) (u : ℚ) (normConst : ℕ → ℚ)
    (poolSize : ℕ)
    (hreal : (drawSelector Nc u).idx ≠ Nc)
    (hzero : normConst ((drawSelector Nc u).idx) = 0) :
    stStep Nc false u normConst poolSize = .skip := by
  simp [stStep, hreal, hzero]

/-- Witness for `calcSt_zero_norm_skip`: with `Nc = 1` and `u = 0` the
scan selects real cache `0`; its zero normalization constant forces a
skip. -/
theorem calcSt_zero_norm_skip_witness :
    stStep 1 false 0 (fun _ => 0) 5 = StAction.skip :=
  calcSt_zero_norm_skip 1 0 (fun _ => 0) 5
    (by norm_num [drawSelector, selectorScan, selectorScanGo]) rfl

/-- `render` never changes `m_ns1`: it stays at its construction value. -/
theorem iterRender_m_ns1 (st0 : renderer) (inps : ℕ → FrameInput) (k : ℕ) :
    (iterRender st0 inps k).m_ns1 = st0.m_ns1 := by
  induction k with
  | zero => rfl
  | succ k ih => simpa [iterRender, renderer.render] using ih

/-- `render` never changes `m_M`. -/
theorem iterRender_m_M (st0 : renderer) (inps : ℕ → FrameInput) (k : ℕ) :
    (iterRender st0 inps k).m_M = st0.m_M := by
  induction k with
  | zero => rfl
  | succ k ih => simpa [iterRender, renderer.render] using ih

/-- C10: the frame-end scatter-buffer merge is unconditional and
unchecked.  If a pixel's radiance was rejected by the NaN firewall
(direct term zero) and its scatter entry is `+inf`, the returned pixel
still receives the scaled scatter term, and the non-finite value
propagates into the returned image. -/
theorem scatter_merge_unconditional (st : renderer) (inp : FrameInput)
    (x y : ℕ)
    (hns : 0 < st.m_ns1)
    (hnan : (inp.radiance x y).hsum.isNaN = true)
    (hscat : (inp.scatter x y).r = FVal.pinf) :
    (st.render inp).image x y
      = colAdd colZero (colScale (inp.scatter x y) (invNs1 st.m_ns1))
  ∧ ((st.render inp).image x y).r = FVal.pinf := by
  have h1 : storeDirect colZero (inp.radiance x y) = colZero := by
    simp [storeDirect, hnan]
  have h2 : (st.render inp).image x y
      = colAdd colZero (colScale (inp.scatter x y) (invNs1 st.m_ns1)) := by
    simp [renderer.render, h1]
  refine ⟨h2, ?_⟩
  rw [h2]
  have hne : st.m_ns1 ≠ 0 := Nat.pos_iff_ne_zero.mp hns
  have h3 : (0 : ℚ) < (st.m_ns1 : ℚ) := by exact_mod_cast hns
  have hq : 0 < 1 / (st.m_ns1 : ℚ) := by positivity
  simp [colAdd, colScale, invNs1, hne, hscat, FVal.mul, FVal.add, hq, h3,
    colZero]

/-- Witness for `scatter_merge_unconditional` at a concrete renderer and
frame. -/
theorem scatter_merge_unconditional_witness :
    (((renderer.init ⟨1, 1⟩ 1 1).render nanFrame).image 0 0).r = FVal.pinf :=
  (scatter_merge_unconditional (renderer.init ⟨1, 1⟩ 1 1) nanFrame 0 0
    (by decide) (by decide) (by decide)).2

/-- C7: the value of every pixel of the image returned by `render` is the
directly computed per-pixel radiance — or zero when it was rejected by
the NaN firewall — plus the scatter-buffer entry for that pixel scaled by
exactly `1 / (res_x * res_y)` of the camera supplied at construction
time, after any number of preceding `render` calls. -/
theorem render_final_merge (cam : Camera) (M nt k x y : ℕ)
    (inps : ℕ → FrameInput) (inp : FrameInput)
    (hres : 0 < cam.res_x * cam.res_y) :
    ((iterRender (renderer.init cam M nt) inps k).render inp).image x y
      = colAdd (if (inp.radiance x y).hsum.isNaN then colZero
                else inp.radiance x y)
               (colScale (inp.scatter x y)
                 (FVal.fin (1 / ((cam.res_x * cam.res_y : ℕ) : ℚ)))) := by
  have hns : (iterRender (renderer.init cam M nt) inps k).m_ns1
      = cam.res_x * cam.res_y := by
    rw [iterRender_m_ns1]; rfl
  have hinv : invNs1 ((iterRender (renderer.init cam M nt) inps k).m_ns1)
      = FVal.fin (1 / ((cam.res_x * cam.res_y : ℕ) : ℚ)) := by
    rw [hns]; simp [invNs1, Nat.pos_iff_ne_zero.mp hres]
  simp [renderer.render, storeDirect, hinv]

/-- Closed form of the selector scan: starting with `k` iterations left at
index `i` (so `i + k = Nc`) and a nonnegative residual `u`, the scan
returns `i + min k (floor (u * (Nc + 1)))`. -/
theorem selectorScanGo_closed (Nc : ℕ) (k : ℕ) :
    ∀ (i : ℕ) (u : ℚ), 0 ≤ u → i + k = Nc →
      selectorScanGo Nc (1 / ((Nc : ℚ) + 1)) k i u
        = i + min k (Nat.floor (u * ((Nc : ℚ) + 1))) := by
  induction k with
  | zero =>
    intro i u _ hik
    simp only [selectorScanGo, Nat.min_comm, Nat.min_zero, Nat.add_zero]
    omega
  | succ k ih =>
    intro i u hu hik
    have hNc : (0 : ℚ) < (Nc : ℚ) + 1 := by positivity
    by_cases hlt : u < 1 / ((Nc : ℚ) + 1)
    · have hf : Nat.floor (u * ((Nc : ℚ) + 1)) = 0 := by
        rw [Nat.floor_eq_zero]
        calc u * ((Nc : ℚ) + 1) < (1 / ((Nc : ℚ) + 1)) * ((Nc : ℚ) + 1) :=
              mul_lt_mul_of_pos_right hlt hNc
          _ = 1 := by field_simp
      rw [show selectorScanGo Nc (1 / ((Nc : ℚ) + 1)) (k + 1) i u
            = if u < 1 / ((Nc : ℚ) + 1) then i
              else selectorScanGo Nc (1 / ((Nc : ℚ) + 1)) k (i + 1)
                     (u - 1 / ((Nc : ℚ) + 1)) from rfl,
        if_pos hlt, hf]
      omega
    · push_neg at hlt
      have hub : (1 : ℚ) ≤ u * ((Nc : ℚ) + 1) := by
        calc (1 : ℚ) = (1 / ((Nc : ℚ) + 1)) * ((Nc : ℚ) + 1) := by field_simp
          _ ≤ u * ((Nc : ℚ) + 1) :=
              mul_le_mul_of_nonneg_right hlt (le_of_lt hNc)
      have hfx : (1 : ℤ) ≤ ⌊u * ((Nc : ℚ) + 1)⌋ := by
        rw [Int.le_floor]; exact_mod_cast hub
      have hu' : 0 ≤ u - 1 / ((Nc : ℚ) + 1) := by linarith
      have harg : (u - 1 / ((Nc : ℚ) + 1)) * ((Nc : ℚ) + 1)
          = u * ((Nc : ℚ) + 1) - 1 := by
        field_simp
      have hfloor : Nat.floor ((u - 1 / ((Nc : ℚ) + 1)) * ((Nc : ℚ) + 1))
          = Nat.floor (u * ((Nc : ℚ) + 1)) - 1 := by
        rw [harg, ← Int.floor_toNat, ← Int.floor_toNat, Int.floor_sub_one]
        omega
      have hstep : selectorScanGo Nc (1 / ((Nc : ℚ) + 1)) (k + 1) i u
          = selectorScanGo Nc (1 / ((Nc : ℚ) + 1)) k (i + 1)
              (u - 1 / ((Nc : ℚ) + 1)) := by
        rw [show selectorScanGo Nc (1 / ((Nc : ℚ) + 1)) (k + 1) i u
              = if u < 1 / ((Nc : ℚ) + 1) then i
                else selectorScanGo Nc (1 / ((Nc : ℚ) + 1)) k (i + 1)
                       (u - 1 / ((Nc : ℚ) + 1)) from rfl,
          if_neg (not_lt.mpr hlt)]
      rw [hstep, ih (i + 1) _ hu' (by omega), hfloor]
      have hf1 : 1 ≤ Nat.floor (u * ((Nc : ℚ) + 1)) := by
        have := Int.floor_toNat (u * ((Nc : ℚ) + 1))
        omega
      omega

/-- The selector scan equals `min Nc (floor (u * (Nc + 1)))` for
nonnegative `u`. -/
theorem selectorScan_closed (Nc : ℕ) (u : ℚ) (hu : 0 ≤ u) :
    selectorScan Nc u = min Nc (Nat.floor (u * ((Nc : ℚ) + 1))) := by
  have h := selectorScanGo_closed Nc Nc 0 u hu (by omega)
  simpa [selectorScan] using h

/-- C8: the inline linear-scan selector draw is a discrete uniform choice
over the `Nc + 1` slots: for `u` in `[0,1)` it selects real cache `i`
exactly when `u` lies in `[i/(Nc+1), (i+1)/(Nc+1))` with `i < Nc`, and the
virtual slot `Nc` exactly when `u ≥ Nc/(Nc+1)`; the recorded selector
probability is `1/(Nc+1)` in every case, and each slot's selection
interval has length `1/(Nc+1)`. -/
theorem calcSt_selector_uniform (Nc i : ℕ) (u : ℚ) (h0 : 0 ≤ u) (h1 : u < 1) :
    ((drawSelector Nc u).idx = i ↔
      ((i < Nc ∧ (i : ℚ) / ((Nc : ℚ) + 1) ≤ u
          ∧ u < ((i : ℚ) + 1) / ((Nc : ℚ) + 1))
        ∨ (i = Nc ∧ (Nc : ℚ) / ((Nc : ℚ) + 1) ≤ u)))
  ∧ (drawSelector Nc u).pmf = 1 / ((Nc : ℚ) + 1)
  ∧ ((i : ℚ) + 1) / ((Nc : ℚ) + 1) - (i : ℚ) / ((Nc : ℚ) + 1)
      = 1 / ((Nc : ℚ) + 1) := by
  have hNc : (0 : ℚ) < (Nc : ℚ) + 1 := by positivity
  have hx0 : 0 ≤ u * ((Nc : ℚ) + 1) := mul_nonneg h0 (le_of_lt hNc)
  have hscan : (drawSelector Nc u).idx
      = min Nc (Nat.floor (u * ((Nc : ℚ) + 1))) := selectorScan_closed Nc u h0
  refine ⟨?_, rfl, by rw [div_sub_div_same]; norm_num⟩
  rw [hscan]
  constructor
  · intro hmin
    rcases lt_trichotomy i Nc with hi | hi | hi
    · left
      have hf : Nat.floor (u * ((Nc : ℚ) + 1)) = i := by omega
      have hif := (Nat.floor_eq_iff hx0).mp hf
      refine ⟨hi, ?_, ?_⟩
      · rw [div_le_iff hNc]; exact_mod_cast hif.1
      · rw [lt_div_iff hNc]; exact_mod_cast hif.2
    · right
      have hf : Nc ≤ Nat.floor (u * ((Nc : ℚ) + 1)) := by omega
      refine ⟨hi, ?_⟩
      rw [div_le_iff hNc]
      exact_mod_cast (Nat.le_floor_iff hx0).mp hf
    · exfalso; omega
  · rintro (⟨hi, hlo, hhi⟩ | ⟨hi, hlo⟩)
    · have hlo' : (i : ℚ) ≤ u * ((Nc : ℚ) + 1) := by
        rwa [div_le_iff hNc] at hlo
      have hhi' : u * ((Nc : ℚ) + 1) < (i : ℚ) + 1 := by
        rwa [lt_div_iff hNc] at hhi
      have hf : Nat.floor (u * ((Nc : ℚ) + 1)) = i := by
        rw [Nat.floor_eq_iff hx0]
        exact ⟨by exact_mod_cast hlo', by exact_mod_cast hhi'⟩
      omega
    · subst hi
      have hlo' : (i : ℚ) ≤ u * ((i : ℚ) + 1) := by
        rwa [div_le_iff hNc] at hlo
      have hf : i ≤ Nat.floor (u * ((i : ℚ) + 1)) :=
        (Nat.le_floor_iff hx0).mpr (by exact_mod_cast hlo')
      omega

/-- Witness for `calcSt_selector_uniform`: with two slots (`Nc = 1`) and
`u = 1/4` the scan selects real cache `0` and records probability `1/2`. -/
theorem calcSt_selector_uniform_witness :
    ((drawSelector 1 (1 / 4)).idx = 0 ↔
      ((0 < 1 ∧ ((0 : ℕ) : ℚ) / (((1 : ℕ) : ℚ) + 1) ≤ 1 / 4
          ∧ (1 / 4 : ℚ) < (((0 : ℕ) : ℚ) + 1) / (((1 : ℕ) : ℚ) + 1))
        ∨ ((0 : ℕ) = 1 ∧ ((1 : ℕ) : ℚ) / (((1 : ℕ) : ℚ) + 1) ≤ 1 / 4)))
  ∧ (drawSelector 1 (1 / 4)).pmf = 1 / (((1 : ℕ) : ℚ) + 1)
  ∧ (((0 : ℕ) : ℚ) + 1) / (((1 : ℕ) : ℚ) + 1)
      - ((0 : ℕ) : ℚ) / (((1 : ℕ) : ℚ) + 1) = 1 / (((1 : ℕ) : ℚ) + 1) :=
  calcSt_selector_uniform 1 0 (1 / 4) (by norm_num) (by norm_num)

/-- C3 (code evaluation at the failing input): with zero light sources
every light sub-path has zero vertices, so the candidate pool is empty;
when a `t`-iteration of `calculate_st` reaches a non-emissive vertex and
the selector draw lands in the virtual slot (any `u ≥ Nc/(Nc+1)`, here
`u = Nc/(Nc+1)` itself), the code evaluates
`m_candidates.size() - 1 = 2^64 - 1` (size_t underflow) and draws an index
for the empty pool — and every such index is out of bounds. -/
theorem emptyPool_virtual_oob (Nc M : ℕ) (normConst : ℕ → ℚ) :
    buildCandidates (fun _ => 0) M = []
  ∧ stStep Nc false ((Nc : ℚ) / ((Nc : ℚ) + 1)) normConst 0
      = .sampleVirtual (2 ^ 64 - 1)
  ∧ ∀ idx : ℕ, ¬ idx < (buildCandidates (fun _ => 0) M).length := by
  have hempty : buildCandidates (fun _ => 0) M = [] := by
    induction M with
    | zero => rfl
    | succ M ih => simp [buildCandidates, ih]
  refine ⟨hempty, ?_, ?_⟩
  · have hNc : (0 : ℚ) < (Nc : ℚ) + 1 := by positivity
    have hu0 : 0 ≤ (Nc : ℚ) / ((Nc : ℚ) + 1) := by positivity
    have harg : ((Nc : ℚ) / ((Nc : ℚ) + 1)) * ((Nc : ℚ) + 1) = (Nc : ℚ) := by
      field_simp
    have hscan : selectorScan Nc ((Nc : ℚ) / ((Nc : ℚ) + 1)) = Nc := by
      rw [selectorScan_closed _ _ hu0, harg, Nat.floor_natCast, min_self]
    have hsz : sizeTSub1 0 = 2 ^ 64 - 1 := by
      simp [sizeTSub1]
    simp [stStep, drawSelector, hscan, hsz]
  · intro idx
    rw [hempty]
    simp

/-- Witness for `render_final_merge` at a concrete camera and frame. -/
theorem render_final_merge_witness :
    ((iterRender (renderer.init ⟨1, 1⟩ 1 1) constFrames 0).render
        oneVertexFrame).image 0 0
      = colAdd (if (oneVertexFrame.radiance 0 0).hsum.isNaN then colZero
                else oneVertexFrame.radiance 0 0)
               (colScale (oneVertexFrame.scatter 0 0)
                 (FVal.fin (1 / ((1 * 1 : ℕ) : ℚ)))) :=
  render_final_merge ⟨1, 1⟩ 1 1 0 0 0 constFrames oneVertexFrame (by decide)

/-- Every candidate's sub-path index is below the number of flattened
sub-paths. -/
theorem buildCandidates_pathIdx_lt (nv : ℕ → ℕ) (M : ℕ) :
    ∀ c ∈ buildCandidates nv M, c.pathIdx < M := by
  induction M with
  | zero => intro c hc; simp [buildCandidates] at hc
  | succ M ih =>
    intro c hc
    rw [buildCandidates, List.mem_append] at hc
    rcases hc with hc | hc
    · exact Nat.lt_succ_of_lt (ih c hc)
    · simp only [List.mem_map, List.mem_range] at hc
      obtain ⟨j, _, rfl⟩ := hc
      exact Nat.lt_succ_self M

/-- The pool size is the sum of the vertex counts of the flattened
sub-paths. -/
theorem buildCandidates_length (nv : ℕ → ℕ) (M : ℕ) :
    (buildCandidates nv M).length = ∑ i in Finset.range M, nv i := by
  induction M with
  | zero => rfl
  | succ M ih => simp [buildCandidates, ih, Finset.sum_range_succ]

/-- The pool is strictly sorted in subpath-then-vertex order. -/
theorem buildCandidates_pairwise (nv : ℕ → ℕ) (M : ℕ) :
    (buildCandidates nv M).Pairwise Candidate.lexLt := by
  induction M with
  | zero => simp [buildCandidates]
  | succ M ih =>
    rw [buildCandidates, List.pairwise_append]
    refine ⟨ih, ?_, ?_⟩
    · rw [List.pairwise_map]
      exact (List.pairwise_lt_range (nv M)).imp fun hab => Or.inr ⟨rfl, hab⟩
    · intro a ha b hb
      simp only [List.mem_map, List.mem_range] at hb
      obtain ⟨j, _, rfl⟩ := hb
      exact Or.inl (buildCandidates_pathIdx_lt nv M a ha)

/-- `lexLt` is irreflexive. -/
theorem Candidate.lexLt_irrefl (a : Candidate) : ¬ Candidate.lexLt a a := by
  simp [Candidate.lexLt]

/-- `lexLt` is asymmetric. -/
theorem Candidate.lexLt_asymm (a b : Candidate) (h : Candidate.lexLt a b) :
    ¬ Candidate.lexLt b a := by
  rcases h with h | ⟨h1, h2⟩ <;> rintro (h' | ⟨h1', h2'⟩) <;> omega

/-- The pool depends only on the vertex counts of the first `M`
sub-paths: no entry of the light-subpath pool beyond index `M - 1` is
read. -/
theorem buildCandidates_agree (nv nv' : ℕ → ℕ) (M : ℕ)
    (h : ∀ i, i < M → nv i = nv' i) :
    buildCandidates nv M = buildCandidates nv' M := by
  induction M with
  | zero => rfl
  | succ M ih =>
    simp only [buildCandidates]
    rw [ih fun i hi => h i (Nat.lt_succ_of_lt hi), h M (Nat.lt_succ_self M)]

/-- C6: after the candidate pool is built, its size is the sum of the
vertex counts of the first `M` light sub-paths; entries are laid out in
subpath-then-vertex order (position order coincides with lexicographic
order); every candidate's sub-path index is `< M`; and the construction
reads only the first `M` sub-paths, so with `M = width*height` no element
past the end of the `width*height`-sized light-subpath pool is read. -/
theorem candidatePool_layout (nv nv' : ℕ → ℕ) (M : ℕ) :
    (buildCandidates nv M).length = ∑ i in Finset.range M, nv i
  ∧ (∀ c ∈ buildCandidates nv M, c.pathIdx < M)
  ∧ (∀ p q : Fin (buildCandidates nv M).length,
      p < q ↔ Candidate.lexLt ((buildCandidates nv M).get p)
               ((buildCandidates nv M).get q))
  ∧ ((∀ i, i < M → nv i = nv' i) →
      buildCandidates nv M = buildCandidates nv' M) := by
  refine ⟨buildCandidates_length nv M, buildCandidates_pathIdx_lt nv M,
    ?_, buildCandidates_agree nv nv' M⟩
  intro p q
  constructor
  · intro hpq
    exact List.pairwise_iff_get.mp (buildCandidates_pairwise nv M) p q hpq
  · intro h
    rcases lt_trichotomy p q with hlt | heq | hgt
    · exact hlt
    · exact absurd (heq ▸ h) (Candidate.lexLt_irrefl _)
    · exact absurd h (Candidate.lexLt_asymm _ _
        (List.pairwise_iff_get.mp (buildCandidates_pairwise nv M) q p hgt))

/-- Witness for `candidatePool_layout`: two vertex-count functions that
agree below `M = 2` yield identical pools. -/
theorem candidatePool_layout_witness :
    buildCandidates nvA 2 = buildCandidates nvB 2 :=
  (candidatePool_layout nvA nvB 2).2.2.2 (by decide)

/-- After `k` calls of `render`, `m_ite` equals `k`. -/
theorem iterRender_m_ite (cam : Camera) (M nt : ℕ) (inps : ℕ → FrameInput)
    (k : ℕ) :
    (iterRender (renderer.init cam M nt) inps k).m_ite = k := by
  induction k with
  | zero => rfl
  | succ k ih => simp [iterRender, renderer.render, ih]

/-- After `k` calls of `render`, `m_sum` is the sum of the `k` per-frame
`V/M` terms. -/
theorem iterRender_m_sum (cam : Camera) (M nt : ℕ) (inps : ℕ → FrameInput)
    (k : ℕ) :
    (iterRender (renderer.init cam M nt) inps k).m_sum
      = ∑ j in Finset.range k,
          ((buildCandidates (inps j).numVertices M).length : ℚ) / (M : ℚ) := by
  induction k with
  | zero => simp [iterRender, renderer.init]
  | succ k ih =>
    have hM : (iterRender (renderer.init cam M nt) inps k).m_M = M := by
      rw [iterRender_m_M]; rfl
    simp [iterRender, renderer.render, ih, hM, Finset.sum_range_succ]

/-- C2: every call of `render` increases `m_ite` by exactly `1` and
`m_sum` by exactly (candidate-pool size) / `M`; after the `k`-th call,
`m_Qp = m_sum / m_ite` is the arithmetic mean of the `k` per-frame `V/M`
terms; and `render` never resets or decreases `m_sum` or `m_ite`. -/
theorem render_progressive_mean (cam : Camera) (M nt k : ℕ)
    (inps : ℕ → FrameInput) (hM : 0 < M) (hk : 0 < k) :
    (∀ j : ℕ, (iterRender (renderer.init cam M nt) inps (j + 1)).m_ite
        = (iterRender (renderer.init cam M nt) inps j).m_ite + 1)
  ∧ (∀ j : ℕ, (iterRender (renderer.init cam M nt) inps (j + 1)).m_sum
        = (iterRender (renderer.init cam M nt) inps j).m_sum
          + ((buildCandidates (inps j).numVertices M).length : ℚ) / (M : ℚ))
  ∧ (iterRender (renderer.init cam M nt) inps k).m_ite = k
  ∧ (iterRender (renderer.init cam M nt) inps k).m_Qp
      = (∑ j in Finset.range k,
          ((buildCandidates (inps j).numVertices M).length : ℚ) / (M : ℚ))
        / (k : ℚ)
  ∧ (∀ j : ℕ, (iterRender (renderer.init cam M nt) inps j).m_sum
        ≤ (iterRender (renderer.init cam M nt) inps (j + 1)).m_sum
      ∧ (iterRender (renderer.init cam M nt) inps j).m_ite
        < (iterRender (renderer.init cam M nt) inps (j + 1)).m_ite) := by
  have hstep_ite : ∀ j : ℕ,
      (iterRender (renderer.init cam M nt) inps (j + 1)).m_ite
        = (iterRender (renderer.init cam M nt) inps j).m_ite + 1 := by
    intro j
    rw [iterRender_m_ite, iterRender_m_ite]
  have hstep_sum : ∀ j : ℕ,
      (iterRender (renderer.init cam M nt) inps (j + 1)).m_sum
        = (iterRender (renderer.init cam M nt) inps j).m_sum
          + ((buildCandidates (inps j).numVertices M).length : ℚ) / (M : ℚ) := by
    intro j
    rw [iterRender_m_sum, iterRender_m_sum, Finset.sum_range_succ]
  refine ⟨hstep_ite, hstep_sum, iterRender_m_ite cam M nt inps k, ?_, ?_⟩
  · obtain ⟨k', rfl⟩ : ∃ k', k = k' + 1 := ⟨k - 1, by omega⟩
    have hqp : (iterRender (renderer.init cam M nt) inps (k' + 1)).m_Qp
        = (iterRender (renderer.init cam M nt) inps (k' + 1)).m_sum
          / ((iterRender (renderer.init cam M nt) inps (k' + 1)).m_ite : ℚ) := by
      simp [iterRender, renderer.render]
    rw [hqp, iterRender_m_sum, iterRender_m_ite]
  · intro j
    refine ⟨?_, by rw [hstep_ite j]; omega⟩
    rw [hstep_sum j]
    have : (0 : ℚ)
        ≤ ((buildCandidates (inps j).numVertices M).length : ℚ) / (M : ℚ) := by
      positivity
    linarith

/-- Witness for `render_progressive_mean`: a 1x1 camera, `M = 1`, one
frame whose light sub-path has one vertex; afterwards `m_Qp = 1`. -/
theorem render_progressive_mean_witness :
    (iterRender (renderer.init ⟨1, 1⟩ 1 1) constFrames 1).m_Qp
      = (∑ j in Finset.range 1,
          ((buildCandidates (constFrames j).numVertices 1).length : ℚ)
            / ((1 : ℕ) : ℚ)) / ((1 : ℕ) : ℚ) :=
  (render_progressive_mean ⟨1, 1⟩ 1 1 1 constFrames (by decide)
    (by decide)).2.2.2.1

/-- Characterisation of the MIS loop after `n` iterations: `sum_val` is
the sum of the balance-like terms over caches with a positive
`pmf(sample_idx) * normalization_constant()` product, and `val` holds the
chosen cache's term exactly when the chosen cache was reached with a
positive product. -/
theorem misLoop_fold_spec (Nc M : ℕ) (thr : ℚ) (nbr : ℕ → NbrCache)
    (cacheIdx : ℕ) (n : ℕ) :
    ((List.range n).foldl (misLoopStep Nc M thr nbr cacheIdx) (none, 0)).2
      = (∑ i in Finset.range n,
          if 0 < (nbr i).pmfAtSample * (nbr i).normConst
          then realTerm Nc M thr (nbr i).Q
                 ((nbr i).pmfAtSample * (nbr i).normConst)
          else 0)
  ∧ ((List.range n).foldl (misLoopStep Nc M thr nbr cacheIdx) (none, 0)).1
      = (if cacheIdx < n
            ∧ 0 < (nbr cacheIdx).pmfAtSample * (nbr cacheIdx).normConst
         then some (realTerm Nc M thr (nbr cacheIdx).Q
                 ((nbr cacheIdx).pmfAtSample * (nbr cacheIdx).normConst))
         else none) := by
  induction n with
  | zero => simp
  | succ n ih =>
    obtain ⟨ih1, ih2⟩ := ih
    rw [List.range_succ, List.foldl_append, List.foldl_cons, List.foldl_nil]
    have hstep : ∀ acc : Option ℚ × ℚ,
        misLoopStep Nc M thr nbr cacheIdx acc n
          = if 0 < (nbr n).pmfAtSample * (nbr n).normConst
            then ((if cacheIdx = n
                   then some (realTerm Nc M thr (nbr n).Q
                          ((nbr n).pmfAtSample * (nbr n).normConst))
                   else acc.1),
                  acc.2 + realTerm Nc M thr (nbr n).Q
                    ((nbr n).pmfAtSample * (nbr n).normConst))
            else acc := fun acc => rfl
    rw [hstep]
    by_cases hL : 0 < (nbr n).pmfAtSample * (nbr n).normConst
    · rw [if_pos hL]
      constructor
      · show _ + _ = _
        rw [ih1, Finset.sum_range_succ, if_pos hL]
      · show (if cacheIdx = n then _ else _) = _
        by_cases hc : cacheIdx = n
        · subst hc
          rw [if_pos rfl, if_pos ⟨Nat.lt_succ_self cacheIdx, hL⟩]
        · rw [if_neg hc, ih2]
          by_cases h2 : cacheIdx < n
            ∧ 0 < (nbr cacheIdx).pmfAtSample * (nbr cacheIdx).normConst
          · rw [if_pos h2, if_pos ⟨Nat.lt_succ_of_lt h2.1, h2.2⟩]
          · rw [if_neg h2, if_neg ?_]
            intro h3
            exact h2 ⟨by omega, h3.2⟩
    · rw [if_neg hL]
      constructor
      · rw [ih1, Finset.sum_range_succ, if_neg hL, add_zero]
      · rw [ih2]
        by_cases h2 : cacheIdx < n
          ∧ 0 < (nbr cacheIdx).pmfAtSample * (nbr cacheIdx).normConst
        · rw [if_pos h2, if_pos ⟨Nat.lt_succ_of_lt h2.1, h2.2⟩]
        · rw [if_neg h2, if_neg ?_]
          rintro ⟨h3, h4⟩
          rcases Nat.lt_succ_iff_lt_or_eq.mp h3 with h5 | h5
          · exact h2 ⟨h5, h4⟩
          · subst h5; exact hL h4

/-- C1: on a successful resampling connection (the chosen selector is the
virtual slot, or a real cache reached with a positive
`pmf(sample_idx) * normalization_constant()` product), the MIS weight is
`val / (light-partial + sum_val + camera-partial)` where `sum_val` adds
one balance-like term per real cache with positive product plus the
always-added virtual-slot term, and `val` is the chosen selector's own
term; the accumulated pixel contribution equals
`Le_throughput * f(yz) * f(zy) * throughput_We * G / (pmf * M) * mis_weight`. -/
theorem calcSt_mis_weight (Nc M : ℕ) (thr Qp lightW camW : ℚ)
    (nbr : ℕ → NbrCache) (cacheIdx : ℕ)
    (hsel : cacheIdx = Nc
      ∨ (cacheIdx < Nc
          ∧ 0 < (nbr cacheIdx).pmfAtSample * (nbr cacheIdx).normConst)) :
    misWeightSt Nc M thr Qp lightW camW nbr cacheIdx
      = some ((if cacheIdx = Nc then virtualTerm Nc M Qp
               else realTerm Nc M thr (nbr cacheIdx).Q
                 ((nbr cacheIdx).pmfAtSample * (nbr cacheIdx).normConst))
          / (lightW
             + ((∑ i in Finset.range Nc,
                  if 0 < (nbr i).pmfAtSample * (nbr i).normConst
                  then realTerm Nc M thr (nbr i).Q
                         ((nbr i).pmfAtSample * (nbr i).normConst)
                  else 0)
                + virtualTerm Nc M Qp)
             + camW))
  ∧ ∀ LeT fyz fzy tWe G pmf w : ℚ,
      contribStChannel LeT fyz fzy tWe G pmf M w
        = LeT * fyz * fzy * tWe * G / (pmf * (M : ℚ)) * w := by
  obtain ⟨hspec1, hspec2⟩ := misLoop_fold_spec Nc M thr nbr cacheIdx Nc
  constructor
  · show (if cacheIdx = Nc then some (virtualTerm Nc M Qp)
        else (misLoop Nc M thr nbr cacheIdx).1).map
          (fun v => v / (lightW
            + ((misLoop Nc M thr nbr cacheIdx).2 + virtualTerm Nc M Qp)
            + camW)) = _
    rcases hsel with hc | ⟨hlt, hpos⟩
    · rw [if_pos hc, if_pos hc, Option.map_some']
      rw [show (misLoop Nc M thr nbr cacheIdx).2 = _ from hspec1]
    · have hne : cacheIdx ≠ Nc := Nat.ne_of_lt hlt
      rw [if_neg hne, if_neg hne,
        show (misLoop Nc M thr nbr cacheIdx).1 = _ from hspec2,
        if_pos ⟨hlt, hpos⟩, Option.map_some']
      rw [show (misLoop Nc M thr nbr cacheIdx).2 = _ from hspec1]
  · intro LeT fyz fzy tWe G pmf w
    show LeT * fyz * fzy * tWe * (G / (pmf * (M : ℚ)) * w) = _
    ring

/-- Witness for `calcSt_mis_weight`: one real cache (`Nc = 1`), `M = 2`,
the virtual slot chosen. -/
theorem calcSt_mis_weight_witness :
    misWeightSt 1 2 (1 / 2) 1 0 0 constNbr 1
      = some ((if (1 : ℕ) = 1 then virtualTerm 1 2 1
               else realTerm 1 2 (1 / 2) (constNbr 1).Q
                 ((constNbr 1).pmfAtSample * (constNbr 1).normConst))
          / ((0 : ℚ)
             + ((∑ i in Finset.range 1,
                  if 0 < (constNbr i).pmfAtSample * (constNbr i).normConst
                  then realTerm 1 2 (1 / 2) (constNbr i).Q
                         ((constNbr i).pmfAtSample * (constNbr i).normConst)
                  else 0)
                + virtualTerm 1 2 1)
             + (0 : ℚ))) :=
  (calcSt_mis_weight 1 2 (1 / 2) 1 0 0 constNbr 1 (Or.inl rfl)).1

end RisBpt
